import Mathlib

/-!
Verification of the tank voice-assistant backend against its specification.

Shallow embedding of the Python sources:
- `tank_backend/core/brain.py` (`Brain.handle`, `Brain._process_stream`,
  `Brain._add_to_conversation_history`)
- `tank_backend/audio/output/audio_output.py` (`AudioOutput.interrupt`)
- `tank_backend/audio/output/callback_sink.py` (`CallbackAudioSink._run`)
- `voice_assistant/audio/output/tts_worker.py` (`TTSWorker.handle`)
- `voice_assistant/audio/input/perception_streaming.py` (`StreamingPerception.handle`)
- `tank_backend/core/worker.py` (`QueueWorker.run`)
- `tank_backend/audio/input/queue_source.py` (`QueueAudioSource.push`)
- `tank_backend/tools/calculator.py` (`CalculatorTool.execute`)

Queues are modelled as lists; the per-session interrupt flag as a `Bool`;
worker loops as functions from the list of items they consume to the trace
of effects they produce.  Non-deterministic external events (LLM deltas,
interrupt-flag observations, recognizer output) are inputs of the model.
-/

namespace Tank

/-- `UpdateType` from `tank_backend/core/events.py`. -/
inductive UpdateType
  | THOUGHT
  | TOOL_CALL
  | TOOL_RESULT
  | TEXT
  deriving DecidableEq, Repr

/-- `SignalMessage` from `tank_backend/core/events.py` (metadata omitted:
no claim mentions it). -/
structure SignalMessage where
  signal_type : String
  msg_id : Option String
  deriving DecidableEq, Repr

/-- `DisplayMessage` from `tank_backend/core/events.py` (metadata omitted). -/
structure DisplayMessage where
  speaker : String
  text : String
  is_user : Bool
  is_final : Bool
  msg_id : Option String
  update_type : UpdateType := UpdateType.TEXT
  deriving DecidableEq, Repr

/-- `UIMessage = Union[SignalMessage, DisplayMessage]`. -/
inductive UIMessage
  | signal (s : SignalMessage)
  | display (d : DisplayMessage)
  deriving DecidableEq, Repr

/-- `AudioOutputRequest` from `tank_backend/core/events.py`. -/
structure AudioOutputRequest where
  content : String
  language : String := "auto"
  voice : Option String := none
  deriving DecidableEq, Repr

/-- One conversation-history record: `{"role": r, "content": c}`. -/
structure HistoryRecord where
  role : String
  content : String
  deriving DecidableEq, Repr

/-- An observable effect of the brain worker, in program order:
a put on the UI queue, a put on the audio-output queue, or an append to
the conversation history. -/
inductive BrainAction
  | putUI (m : UIMessage)
  | putAudio (r : AudioOutputRequest)
  | appendHistory (role : String) (content : String)
  deriving DecidableEq, Repr

/-- One delta yielded by `LLM.chat_stream` together with the value the
interrupt flag (`runtime.interrupt_event.is_set()`) is observed to have
when the brain checks it at that delta. -/
structure Delta where
  update_type : UpdateType
  content : String
  interruptSeen : Bool
  deriving DecidableEq, Repr

/-- How a run of `Brain._process_stream` terminates. -/
inductive StreamOutcome
  | completed
  | interrupted
  | errored
  deriving DecidableEq, Repr

/-- The inner `async for` loop of `Brain._process_stream`: for each delta,
first check the interrupt flag (raise `BrainInterrupted` when
`speech_interrupt_enabled` and the flag is set), then push the delta as a
non-final `DisplayMessage`, accumulating `TEXT` content into
`full_response_text`.  Returns the actions emitted, the accumulated text,
and whether the loop was cut short by `BrainInterrupted`. -/
def processDeltas (interruptEnabled : Bool) (msgId : String) (acc : String) :
    List Delta → List BrainAction × String × Bool
  | [] => ([], acc, false)
  | d :: rest =>
    if interruptEnabled && d.interruptSeen then
      ([], acc, true)
    else
      let acc' := if d.update_type = UpdateType.TEXT then acc ++ d.content else acc
      let (as, full, intr) := processDeltas interruptEnabled msgId acc' rest
      (BrainAction.putUI (UIMessage.display
        { speaker := "Brain", text := d.content, is_user := false,
          is_final := false, msg_id := some msgId,
          update_type := d.update_type }) :: as,
       full, intr)

/-- `Brain._process_stream` (brain.py lines 157-222).  The LLM stream is
modelled as the list of deltas it yields followed by how it ends
(`endOk = false` models the generator raising).  On a successful end the
brain finalizes the UI block, appends the assistant turn to history when
`full_response_text` is non-empty, and only then enqueues the
`AudioOutputRequest`. -/
def processStream (interruptEnabled : Bool) (msgId : String) (language : String)
    (deltas : List Delta) (endOk : Bool) :
    List BrainAction × StreamOutcome :=
  let (as, full, intr) := processDeltas interruptEnabled msgId "" deltas
  if intr then
    (as, StreamOutcome.interrupted)
  else if endOk then
    (as ++ [BrainAction.putUI (UIMessage.display
        { speaker := "Brain", text := "", is_user := false,
          is_final := true, msg_id := some msgId })] ++
      (if full ≠ "" then
        [BrainAction.appendHistory "assistant" full,
         BrainAction.putAudio { content := full, language := language }]
       else []),
     StreamOutcome.completed)
  else
    (as, StreamOutcome.errored)

/-- Python `str.strip()`: drop leading and trailing whitespace.  Modelled
on the character list so that it evaluates by kernel reduction. -/
def pyStrip (s : String) : String :=
  String.mk (((s.data.dropWhile Char.isWhitespace).reverse.dropWhile
    Char.isWhitespace).reverse)

/-- `Brain.handle` (brain.py lines 88-155).  Blank input (empty after
`strip()`) is ignored.  Otherwise: clear the interrupt flag, append the
user turn to history, emit `processing_started`, run the stream; on
`BrainInterrupted` close the visual block with a final empty message under
the assistant id; on any other exception emit a localized apology under a
fresh error id; in all cases emit `processing_ended` in the `finally`
block. -/
def brainHandle (interruptEnabled : Bool) (eventText : String)
    (msgId errId language errorMsg : String)
    (deltas : List Delta) (endOk : Bool) : List BrainAction :=
  if pyStrip eventText = "" then []
  else
    let (streamActs, outcome) := processStream interruptEnabled msgId language deltas endOk
    BrainAction.appendHistory "user" eventText ::
    BrainAction.putUI (UIMessage.signal
      { signal_type := "processing_started", msg_id := some msgId }) ::
    (streamActs ++
      (match outcome with
       | StreamOutcome.completed => []
       | StreamOutcome.interrupted =>
         [BrainAction.putUI (UIMessage.display
           { speaker := "Brain", text := "", is_user := false,
             is_final := true, msg_id := some msgId })]
       | StreamOutcome.errored =>
         [BrainAction.putUI (UIMessage.display
           { speaker := "Brain", text := errorMsg, is_user := false,
             is_final := true, msg_id := some errId })]) ++
      [BrainAction.putUI (UIMessage.signal
        { signal_type := "processing_ended", msg_id := some msgId })])

/-- Is this action a put of a `SignalMessage` with the given type? -/
def isSignal (ty : String) : BrainAction → Bool
  | BrainAction.putUI (UIMessage.signal s) => s.signal_type = ty
  | _ => false

/-- Project the audio-output puts out of a brain trace. -/
def audioPuts : List BrainAction → List AudioOutputRequest
  | [] => []
  | BrainAction.putAudio r :: rest => r :: audioPuts rest
  | _ :: rest => audioPuts rest

/-- Concatenation of the contents of the `TEXT` deltas of a stream script,
the reference value for `full_response_text`. -/
def textConcat : List Delta → String
  | [] => ""
  | d :: rest =>
    (if d.update_type = UpdateType.TEXT then d.content else "") ++ textConcat rest

theorem processDeltas_countP_signal (ie : Bool) (msgId ty : String) :
    ∀ (deltas : List Delta) (acc : String),
    ((processDeltas ie msgId acc deltas).1).countP (isSignal ty) = 0 := by
  intro deltas
  induction deltas with
  | nil => intro acc; simp [processDeltas]
  | cons d rest ih =>
    intro acc
    simp only [processDeltas]
    split
    · simp
    · simp [List.countP_cons, isSignal, ih]

theorem processDeltas_audioPuts (ie : Bool) (msgId : String) :
    ∀ (deltas : List Delta) (acc : String),
    audioPuts ((processDeltas ie msgId acc deltas).1) = [] := by
  intro deltas
  induction deltas with
  | nil => intro acc; simp [processDeltas, audioPuts]
  | cons d rest ih =>
    intro acc
    simp only [processDeltas]
    split
    · simp [audioPuts]
    · simp [audioPuts, ih]

theorem processDeltas_full_of_not_interrupted (ie : Bool) (msgId : String) :
    ∀ (deltas : List Delta) (acc : String),
    (processDeltas ie msgId acc deltas).2.2 = false →
    (processDeltas ie msgId acc deltas).2.1 = acc ++ textConcat deltas := by
  intro deltas
  induction deltas with
  | nil => intro acc _; simp [processDeltas, textConcat]
  | cons d rest ih =>
    intro acc h
    simp only [processDeltas] at h ⊢
    split at h <;> rename_i hcond
    · simp at h
    · rw [if_neg hcond]
      simp only at h ⊢
      rw [ih _ h, textConcat]
      split <;> simp [String.append_assoc]

theorem processStream_countP_signal (ie : Bool) (msgId lang ty : String)
    (deltas : List Delta) (endOk : Bool) :
    ((processStream ie msgId lang deltas endOk).1).countP (isSignal ty) = 0 := by
  have h0 := processDeltas_countP_signal ie msgId ty deltas ""
  rcases hpd : processDeltas ie msgId "" deltas with ⟨as, full, intr⟩
  rw [hpd] at h0
  simp only [processStream, hpd]
  split
  · exact h0
  · split
    · split <;>
        simp [List.countP_append, List.countP_cons, isSignal, h0]
    · exact h0

theorem audioPuts_append (l m : List BrainAction) :
    audioPuts (l ++ m) = audioPuts l ++ audioPuts m := by
  induction l with
  | nil => simp [audioPuts]
  | cons a rest ih =>
    cases a <;> simp [audioPuts, ih]

theorem getLast?_cons_append_one {α : Type} (x z : α) (l : List α) :
    (x :: (l ++ [z])).getLast? = some z := by
  induction l generalizing x with
  | nil => rfl
  | cons b t ih => simp only [List.cons_append, List.getLast?_cons_cons]; exact ih b

theorem getLast?_cons_append_two {α : Type} (x a z : α) (l : List α) :
    (x :: (l ++ [a, z])).getLast? = some z := by
  have h : l ++ [a, z] = (l ++ [a]) ++ [z] := by simp
  rw [h]
  exact getLast?_cons_append_one x z (l ++ [a])

/-- **C1.** For every `BrainInputEvent` whose text is non-blank after
trimming, `Brain.handle` puts exactly one `processing_started` signal and
exactly one `processing_ended` signal on the UI queue, both carrying the
assistant message id; the `processing_started` is the second action overall
(right after the user-history append, before any LLM processing), and the
`processing_ended` is the very last action, on every path: normal
completion, interruption, and internal error. -/
theorem brain_signal_pairing (ie : Bool)
    (eventText msgId errId lang errMsg : String)
    (deltas : List Delta) (endOk : Bool)
    (h : pyStrip eventText ≠ "") :
    ((brainHandle ie eventText msgId errId lang errMsg deltas endOk).countP
        (isSignal "processing_started") = 1) ∧
    ((brainHandle ie eventText msgId errId lang errMsg deltas endOk).countP
        (isSignal "processing_ended") = 1) ∧
    (brainHandle ie eventText msgId errId lang errMsg deltas endOk)[1]? =
      some (BrainAction.putUI (UIMessage.signal
        { signal_type := "processing_started", msg_id := some msgId })) ∧
    (brainHandle ie eventText msgId errId lang errMsg deltas endOk).getLast? =
      some (BrainAction.putUI (UIMessage.signal
        { signal_type := "processing_ended", msg_id := some msgId })) := by
  have hs := processStream_countP_signal ie msgId lang "processing_started" deltas endOk
  have he := processStream_countP_signal ie msgId lang "processing_ended" deltas endOk
  rcases hps : processStream ie msgId lang deltas endOk with ⟨sa, outcome⟩
  rw [hps] at hs he
  simp only at hs he
  simp only [brainHandle, if_neg h, hps]
  refine ⟨?_, ?_, ?_, ?_⟩
  · cases outcome <;>
      simp [List.countP_append, List.countP_cons, isSignal, hs]
  · cases outcome <;>
      simp [List.countP_append, List.countP_cons, isSignal, he]
  · simp
  · cases outcome
    · rw [List.append_nil, List.getLast?_cons_cons]
      exact getLast?_cons_append_one _ _ sa
    · rw [List.getLast?_cons_cons, List.append_assoc]
      exact getLast?_cons_append_two _ _ _ sa
    · rw [List.getLast?_cons_cons, List.append_assoc]
      exact getLast?_cons_append_two _ _ _ sa

theorem processStream_completed (ie : Bool) (msgId lang : String)
    (deltas : List Delta) (endOk : Bool)
    (h : (processStream ie msgId lang deltas endOk).2 = StreamOutcome.completed) :
    processStream ie msgId lang deltas endOk =
      ((processDeltas ie msgId "" deltas).1 ++
        [BrainAction.putUI (UIMessage.display
          { speaker := "Brain", text := "", is_user := false,
            is_final := true, msg_id := some msgId })] ++
        (if textConcat deltas ≠ "" then
          [BrainAction.appendHistory "assistant" (textConcat deltas),
           BrainAction.putAudio { content := textConcat deltas, language := lang }]
         else []),
       StreamOutcome.completed) := by
  have hfull := processDeltas_full_of_not_interrupted ie msgId deltas ""
  rcases hpd : processDeltas ie msgId "" deltas with ⟨as, full, intr⟩
  rw [hpd] at hfull
  simp only at hfull
  simp only [processStream, hpd] at h ⊢
  cases intr with
  | true => simp at h
  | false =>
    rw [if_neg (by simp)] at h ⊢
    cases endOk with
    | false => simp at h
    | true =>
      rw [if_pos rfl]
      rw [hfull rfl]
      simp

theorem processStream_audioPuts (ie : Bool) (msgId lang : String)
    (deltas : List Delta) (endOk : Bool) :
    audioPuts (processStream ie msgId lang deltas endOk).1 =
      if (processStream ie msgId lang deltas endOk).2 = StreamOutcome.completed ∧
          textConcat deltas ≠ "" then
        [{ content := textConcat deltas, language := lang }]
      else [] := by
  by_cases h : (processStream ie msgId lang deltas endOk).2 = StreamOutcome.completed
  · rw [processStream_completed ie msgId lang deltas endOk h]
    have hap := processDeltas_audioPuts ie msgId deltas ""
    by_cases h3 : textConcat deltas = ""
    · simp [h3, audioPuts_append, hap, audioPuts]
    · simp [h3, audioPuts_append, hap, audioPuts]
  · rcases hps : processStream ie msgId lang deltas endOk with ⟨sa, outcome⟩
    rw [hps] at h
    simp only at h
    have hap := processDeltas_audioPuts ie msgId deltas ""
    rcases hpd : processDeltas ie msgId "" deltas with ⟨as, full, intr⟩
    rw [hpd] at hap
    simp only at hap
    simp only [processStream, hpd] at hps
    simp only [h, false_and, if_false]
    cases intr with
    | true =>
      simp only [if_pos rfl] at hps
      cases hps
      exact hap
    | false =>
      rw [if_neg (by simp)] at hps
      cases endOk with
      | false =>
        simp only [if_neg (by simp : ¬(false = true))] at hps
        cases hps
        exact hap
      | true =>
        rw [if_pos rfl] at hps
        exact absurd (congrArg Prod.snd hps).symm h

/-- **C2.** The brain enqueues an `AudioOutputRequest` iff the event text
is non-blank, the LLM stream completed without interruption or error, and
the accumulated text (the concatenation of the TEXT deltas) is non-empty;
the request content is that concatenation and the enqueue happens after the
stream has ended: in the trace it directly follows the assistant-history
append, just before the final `processing_ended` signal. -/
theorem brain_tts_request (ie : Bool)
    (eventText msgId errId lang errMsg : String)
    (deltas : List Delta) (endOk : Bool) :
    (audioPuts (brainHandle ie eventText msgId errId lang errMsg deltas endOk) =
      if pyStrip eventText ≠ "" ∧
          (processStream ie msgId lang deltas endOk).2 = StreamOutcome.completed ∧
          textConcat deltas ≠ "" then
        [{ content := textConcat deltas, language := lang }]
      else []) ∧
    (pyStrip eventText ≠ "" →
      (processStream ie msgId lang deltas endOk).2 = StreamOutcome.completed →
      textConcat deltas ≠ "" →
      ∃ pre, brainHandle ie eventText msgId errId lang errMsg deltas endOk =
        pre ++ [BrainAction.appendHistory "assistant" (textConcat deltas),
                BrainAction.putAudio { content := textConcat deltas, language := lang },
                BrainAction.putUI (UIMessage.signal
                  { signal_type := "processing_ended", msg_id := some msgId })]) := by
  constructor
  · by_cases hb : pyStrip eventText = ""
    · simp [brainHandle, hb, audioPuts]
    · have hsa := processStream_audioPuts ie msgId lang deltas endOk
      rcases hps : processStream ie msgId lang deltas endOk with ⟨sa, outcome⟩
      rw [hps] at hsa
      simp only at hsa
      simp only [brainHandle, if_neg hb, hps]
      cases outcome <;>
        simp_all [audioPuts, audioPuts_append, hb]
  · intro hb hc h3
    have := processStream_completed ie msgId lang deltas endOk hc
    simp only [brainHandle, if_neg hb, this, if_pos h3]
    refine ⟨BrainAction.appendHistory "user" eventText ::
      BrainAction.putUI (UIMessage.signal
        { signal_type := "processing_started", msg_id := some msgId }) ::
      ((processDeltas ie msgId "" deltas).1 ++
        [BrainAction.putUI (UIMessage.display
          { speaker := "Brain", text := "", is_user := false,
            is_final := true, msg_id := some msgId })]), ?_⟩
    simp

/-- A sample TEXT delta used by concrete instantiations. -/
def sampleTextDelta : Delta :=
  { update_type := UpdateType.TEXT, content := "hi", interruptSeen := false }

/-- Concrete instantiation of `brain_tts_request`: one TEXT delta "hi",
stream ends successfully, so exactly one request with content "hi" is
enqueued right before the `processing_ended` signal. -/
theorem brain_tts_request_witness :
    (audioPuts (brainHandle true "hello" "m1" "e1" "zh" "err" [sampleTextDelta] true) =
      [{ content := "hi", language := "zh" }]) ∧
    (∃ pre, brainHandle true "hello" "m1" "e1" "zh" "err" [sampleTextDelta] true =
      pre ++ [BrainAction.appendHistory "assistant" "hi",
              BrainAction.putAudio { content := "hi", language := "zh" },
              BrainAction.putUI (UIMessage.signal
                { signal_type := "processing_ended", msg_id := some "m1" })]) := by
  have h := brain_tts_request true "hello" "m1" "e1" "zh" "err" [sampleTextDelta] true
  constructor
  · rw [h.1]; decide
  · exact h.2 (by decide) (by decide) (by decide)

/-- Concrete instantiation of `brain_signal_pairing`: a non-blank event
with one TEXT delta and a successful stream end. -/
theorem brain_signal_pairing_witness :
    ((brainHandle true "hello" "m1" "e1" "zh" "err"
        [{ update_type := UpdateType.TEXT, content := "hi", interruptSeen := false }]
        true).countP (isSignal "processing_started") = 1) ∧
    ((brainHandle true "hello" "m1" "e1" "zh" "err"
        [{ update_type := UpdateType.TEXT, content := "hi", interruptSeen := false }]
        true).countP (isSignal "processing_ended") = 1) ∧
    (brainHandle true "hello" "m1" "e1" "zh" "err"
        [{ update_type := UpdateType.TEXT, content := "hi", interruptSeen := false }]
        true)[1]? =
      some (BrainAction.putUI (UIMessage.signal
        { signal_type := "processing_started", msg_id := some "m1" })) ∧
    (brainHandle true "hello" "m1" "e1" "zh" "err"
        [{ update_type := UpdateType.TEXT, content := "hi", interruptSeen := false }]
        true).getLast? =
      some (BrainAction.putUI (UIMessage.signal
        { signal_type := "processing_ended", msg_id := some "m1" })) :=
  brain_signal_pairing true "hello" "m1" "e1" "zh" "err"
    [{ update_type := UpdateType.TEXT, content := "hi", interruptSeen := false }]
    true (by decide)

/-! ## Conversation history bound (`Brain._add_to_conversation_history`) -/

/-- Python negative-start slice `h[-n:]`: for `n = 0` Python yields the
whole list (`h[-0:] = h[0:] = h`); for `n > 0` the last `min n h.length`
elements. -/
def pyTailSlice {α : Type} (h : List α) (n : Nat) : List α :=
  if n = 0 then h else h.drop (h.length - n)

/-- `Brain._add_to_conversation_history` (brain.py lines 224-235): append
the record, then, when the length exceeds
`max_conversation_history * 2 + 1`, keep the record at index 0 plus the
Python slice `h[-(max_messages - 1):]`. -/
def addToConversationHistory (maxConversationHistory : Nat)
    (history : List HistoryRecord) (role content : String) : List HistoryRecord :=
  let h := history ++ [{ role := role, content := content }]
  let maxMessages := maxConversationHistory * 2 + 1
  if h.length > maxMessages then
    h.take 1 ++ pyTailSlice h (maxMessages - 1)
  else h

/-- The brain's history after a sequence of `(role, content)` appends,
starting from the initial `[system-prompt record]` set up in
`Brain.__init__`. -/
def runConversation (k : Nat) (sys : HistoryRecord)
    (appends : List (String × String)) : List HistoryRecord :=
  appends.foldl (fun h rc => addToConversationHistory k h rc.1 rc.2) [sys]

theorem addToConversationHistory_inv (k : Nat) (hk : 1 ≤ k)
    (sys : HistoryRecord) (h : List HistoryRecord)
    (hne : h ≠ []) (hhead : h.head? = some sys) (role content : String) :
    addToConversationHistory k h role content ≠ [] ∧
    (addToConversationHistory k h role content).head? = some sys ∧
    (addToConversationHistory k h role content).length ≤ 2 * k + 1 := by
  cases h with
  | nil => exact absurd rfl hne
  | cons a t =>
    simp only [List.head?_cons, Option.some.injEq] at hhead
    subst hhead
    simp only [addToConversationHistory, pyTailSlice, List.cons_append]
    split <;> rename_i hlen
    · simp only [List.length_cons, List.length_append, List.length_cons,
        List.length_nil] at hlen
      rw [if_neg (by omega)]
      refine ⟨by simp, by simp, ?_⟩
      simp only [List.length_append, List.length_take, List.length_cons,
        List.length_drop, List.length_append, List.length_nil]
      omega
    · simp only [List.length_cons, List.length_append, List.length_cons,
        List.length_nil] at hlen
      refine ⟨by simp, by simp, ?_⟩
      simp only [List.length_cons, List.length_append, List.length_nil]
      omega

theorem runConversation_inv (k : Nat) (hk : 1 ≤ k) (sys : HistoryRecord) :
    ∀ (appends : List (String × String)) (h : List HistoryRecord),
    h ≠ [] → h.head? = some sys → h.length ≤ 2 * k + 1 →
    (appends.foldl (fun h rc => addToConversationHistory k h rc.1 rc.2) h) ≠ [] ∧
    (appends.foldl (fun h rc => addToConversationHistory k h rc.1 rc.2) h).head? =
      some sys ∧
    (appends.foldl (fun h rc => addToConversationHistory k h rc.1 rc.2) h).length ≤
      2 * k + 1 := by
  intro appends
  induction appends with
  | nil => intro h hne hhead hlen; exact ⟨hne, hhead, hlen⟩
  | cons rc rest ih =>
    intro h hne hhead _
    have step := addToConversationHistory_inv k hk sys h hne hhead rc.1 rc.2
    exact ih _ step.1 step.2.1 step.2.2

/-- **C4 (amended).** For `max_conversation_history = k ≥ 1`, after any
sequence of appends the conversation history has at most `2*k + 1` records
and the record at index 0 is the system-prompt record.  (For `k = 0` the
Python slice `h[-0:]` returns the whole list and the bound fails; see the
counterexample.) -/
theorem history_bound (k : Nat) (sys : HistoryRecord)
    (appends : List (String × String)) (hk : 1 ≤ k) :
    (runConversation k sys appends).length ≤ 2 * k + 1 ∧
    (runConversation k sys appends).head? = some sys := by
  have h := runConversation_inv k hk sys appends [sys] (by simp) (by simp)
    (by simp only [List.length_singleton]; omega)
  exact ⟨h.2.2, h.2.1⟩

/-- Concrete instantiation of `history_bound`: `k = 1` and four appends
(two turns), ending with 3 records headed by the system record. -/
theorem history_bound_witness :
    1 ≤ 1 ∧
    ((runConversation 1 { role := "system", content := "p" }
        [("user", "a"), ("assistant", "b"), ("user", "c"), ("assistant", "d")]).length
      ≤ 2 * 1 + 1 ∧
    (runConversation 1 { role := "system", content := "p" }
        [("user", "a"), ("assistant", "b"), ("user", "c"), ("assistant", "d")]).head? =
      some { role := "system", content := "p" }) :=
  ⟨by decide,
   history_bound 1 { role := "system", content := "p" }
     [("user", "a"), ("assistant", "b"), ("user", "c"), ("assistant", "d")]
     (by decide)⟩

/-- **C4 counterexample.** With `max_conversation_history = 0` the claimed
bound `2*k + 1` fails: one single append to the initial history already
yields 3 records (the Python slice `h[-0:]` is the whole list, so the
"truncation" prepends a duplicate of the system record instead of
truncating). -/
theorem history_bound_counterexample :
    ¬ ((runConversation 0 { role := "system", content := "p" }
        [("user", "hi")]).length ≤ 2 * 0 + 1) := by
  decide

/-! ## TTS worker end markers and the callback sink
(`tts_worker.py`, `callback_sink.py`) -/

/-- `AudioChunk` from `audio/output/types.py`: PCM bytes, sample rate,
channel count. -/
structure AudioChunk where
  data : List Nat
  sample_rate : Nat
  channels : Nat := 1
  deriving DecidableEq, Repr

/-- `TTSWorker.handle` (tts_worker.py lines 61-106).  The TTS engine's
chunk stream is modelled as the list of chunks it yields, each paired with
the value of the interrupt flag observed right after receiving it, plus
whether the stream ends without raising (`endOk`).  Returns the puts made
to `audio_chunk_queue` (in order) and whether `handle` re-raises.  The
`finally:` block puts the `none` sentinel on every termination path:
success, interrupt-flag break, and engine error. -/
def ttsHandle (chunks : List (AudioChunk × Bool)) (endOk : Bool) :
    List (Option AudioChunk) × Bool :=
  match chunks with
  | [] => ([none], !endOk)
  | (c, intr) :: rest =>
    if intr then ([none], false)
    else
      let (ps, r) := ttsHandle rest endOk
      (some c :: ps, r)

/-- A callback invocation made by `CallbackAudioSink._run`. -/
inductive SinkCall
  | onChunk (c : AudioChunk)
  | onStreamEnd
  deriving DecidableEq, Repr

/-- `CallbackAudioSink._run` (callback_sink.py lines 41-53), with an
`on_stream_end` handler installed: each `none` sentinel consumed from the
chunk queue triggers `on_stream_end` once; every other item is forwarded to
`on_chunk`.  Callback exceptions are caught and the loop continues, so the
trace is exactly one call per consumed item. -/
def sinkRun (items : List (Option AudioChunk)) : List SinkCall :=
  items.map (fun it =>
    match it with
    | none => SinkCall.onStreamEnd
    | some c => SinkCall.onChunk c)

/-- Is a sink call the `on_stream_end` invocation (which emits
`tts_ended`)? -/
def isStreamEnd : SinkCall → Bool
  | SinkCall.onStreamEnd => true
  | _ => false

theorem ttsHandle_puts_count (endOk : Bool) :
    ∀ chunks : List (AudioChunk × Bool),
    ((ttsHandle chunks endOk).1.countP (fun o => o.isNone) = 1) ∧
    ((ttsHandle chunks endOk).1.getLast? = some none) := by
  intro chunks
  induction chunks with
  | nil => cases endOk <;> simp [ttsHandle]
  | cons cb rest ih =>
    rcases cb with ⟨c, intr⟩
    cases intr with
    | true => simp [ttsHandle]
    | false =>
      rcases hr : ttsHandle rest endOk with ⟨ps, r⟩
      rw [hr] at ih
      simp only at ih
      have hps : ttsHandle ((c, false) :: rest) endOk = (some c :: ps, r) := by
        simp [ttsHandle, hr]
      rw [hps]
      refine ⟨?_, ?_⟩
      · simp [List.countP_cons, ih.1]
      · cases ps with
        | nil => simp at ih
        | cons p pt =>
          simp only [List.getLast?_cons_cons]
          exact ih.2

/-- **C5.** For every `AudioOutputRequest` handled by the TTS worker,
exactly one `none` sentinel is put on the audio-chunk queue, after all
audio chunks of the request, on every termination path (successful stream
end, interrupt-flag stop, engine error); and the callback sink invokes its
`on_stream_end` handler (which emits `tts_ended`) exactly once for that
sentinel. -/
theorem tts_end_marker_discipline (chunks : List (AudioChunk × Bool)) (endOk : Bool) :
    ((ttsHandle chunks endOk).1.countP (fun o => o.isNone) = 1) ∧
    ((ttsHandle chunks endOk).1.getLast? = some none) ∧
    ((sinkRun (ttsHandle chunks endOk).1).countP isStreamEnd = 1) := by
  have h := ttsHandle_puts_count endOk chunks
  refine ⟨h.1, h.2, ?_⟩
  have : ∀ items : List (Option AudioChunk),
      (sinkRun items).countP isStreamEnd = items.countP (fun o => o.isNone) := by
    intro items
    induction items with
    | nil => rfl
    | cons it rest ih =>
      cases it <;> simp [sinkRun, List.countP_cons, isStreamEnd] at ih ⊢ <;>
        omega
  rw [this, h.1]

/-! ## Streaming perception (`perception_streaming.py`) -/

/-- The per-utterance mutable state of `StreamingPerception`:
`_last_text`, `_interrupt_fired_for_current`, `_current_msg_id`.  Message
ids (`uuid4` in the source) are modelled by a counter: `nextId` is the next
fresh id. -/
structure PerceptionState where
  lastText : String
  interruptFired : Bool
  currentMsgId : Option Nat
  nextId : Nat
  deriving DecidableEq, Repr

/-- The initial / post-endpoint state of `StreamingPerception`. -/
def resetState (n : Nat) : PerceptionState :=
  { lastText := "", interruptFired := false, currentMsgId := none, nextId := n }

/-- An observable effect of `StreamingPerception.handle`: the barge-in
callback (`on_speech_interrupt`), a `DisplayMessage` put on the UI queue
(speaker/user fields are constants in the source and omitted), or a
`BrainInputEvent` put on the brain-input queue (`msgId` is the
`metadata["msg_id"]` field). -/
inductive PerceptionEffect
  | interruptCallback
  | putDisplay (text : String) (isFinal : Bool) (msgId : Nat)
  | putBrainEvent (text : String) (msgId : Option Nat)
  deriving DecidableEq, Repr

/-- Part (1) of `StreamingPerception.handle`: the barge-in callback fires
when `text` is non-empty and `_interrupt_fired_for_current` is unset. -/
def bargeEffects (s : PerceptionState) (text : String) : List PerceptionEffect :=
  if text ≠ "" ∧ s.interruptFired = false then [PerceptionEffect.interruptCallback]
  else []

/-- Part (2) of `StreamingPerception.handle`: when `text` changed or this
is a non-empty endpoint, remember `text` as `_last_text` and, when
non-empty, allocate `_current_msg_id` if unassigned and push the
`DisplayMessage`.  Returns `(last_text, current_msg_id, next_id, puts)`. -/
def displayUpdate (s : PerceptionState) (text : String) (isFinal : Bool) :
    String × Option Nat × Nat × List PerceptionEffect :=
  if text ≠ s.lastText ∨ (isFinal = true ∧ text ≠ "") then
    if text ≠ "" then
      match s.currentMsgId with
      | some m => (text, some m, s.nextId,
          [PerceptionEffect.putDisplay text isFinal m])
      | none => (text, some s.nextId, s.nextId + 1,
          [PerceptionEffect.putDisplay text isFinal s.nextId])
    else (text, s.currentMsgId, s.nextId, [])
  else (s.lastText, s.currentMsgId, s.nextId, [])

/-- `StreamingPerception.handle` (perception_streaming.py lines 51-92) for
one frame, taking the recognizer result `(text, is_final)` for that frame
(the call `self._asr.process_pcm(frame.pcm)` is the external ASR).
In source order: fire the barge-in callback (`bargeEffects`) and set the
flag; emit the partial/final `DisplayMessage` (`displayUpdate`); on an
endpoint, push a `BrainInputEvent` when `text` is non-empty and reset
`last_text`, the barge-in flag, and the message id. -/
def perceptionStep (s : PerceptionState) (text : String) (isFinal : Bool) :
    PerceptionState × List PerceptionEffect :=
  let d := displayUpdate s text isFinal
  let brainEffs : List PerceptionEffect :=
    if isFinal = true ∧ text ≠ "" then
      [PerceptionEffect.putBrainEvent text d.2.1]
    else []
  let s' : PerceptionState :=
    if isFinal then
      { lastText := "", interruptFired := false, currentMsgId := none,
        nextId := d.2.2.1 }
    else
      { lastText := d.1, interruptFired := s.interruptFired || !(text == ""),
        currentMsgId := d.2.1, nextId := d.2.2.1 }
  (s', bargeEffects s text ++ d.2.2.2 ++ brainEffs)

/-- Run `StreamingPerception.handle` over a sequence of frames (given by
their recognizer results), collecting the per-frame effect lists. -/
def runPerception (s : PerceptionState) :
    List (String × Bool) → PerceptionState × List (List PerceptionEffect)
  | [] => (s, [])
  | (t, f) :: rest =>
    let p1 := perceptionStep s t f
    let p2 := runPerception p1.1 rest
    (p2.1, p1.2 :: p2.2)

/-- The message id carried by a display effect, if any. -/
def displayId : PerceptionEffect → Option Nat
  | PerceptionEffect.putDisplay _ _ m => some m
  | _ => none

/-- Is this effect a `BrainInputEvent` put? -/
def isBrainEvent : PerceptionEffect → Bool
  | PerceptionEffect.putBrainEvent _ _ => true
  | _ => false

/-- Is this effect the barge-in callback invocation? -/
def isInterruptCall : PerceptionEffect → Bool
  | PerceptionEffect.interruptCallback => true
  | _ => false

/-- The expected per-frame barge-in counts stated by the specification:
one invocation exactly at the first frame of the utterance whose
recognized text is non-empty, zero everywhere else (and zero everywhere
when no frame has non-empty text). -/
def claimedBargeCounts (frames : List (String × Bool)) : List Nat :=
  (List.range frames.length).map
    (fun i => if i = frames.findIdx (fun x => decide (x.1 ≠ "")) then 1 else 0)

theorem bargeEffects_count (s : PerceptionState) (t : String) :
    (bargeEffects s t).countP isInterruptCall =
      if t ≠ "" ∧ s.interruptFired = false then 1 else 0 := by
  unfold bargeEffects
  split <;> simp_all [isInterruptCall]

theorem displayUpdate_no_interrupt (s : PerceptionState) (t : String) (f : Bool) :
    ((displayUpdate s t f).2.2.2).countP isInterruptCall = 0 := by
  unfold displayUpdate
  cases hm : s.currentMsgId <;> split <;> (try split) <;> simp [isInterruptCall]

theorem perceptionStep_interrupt_count (s : PerceptionState) (t : String) (f : Bool) :
    ((perceptionStep s t f).2).countP isInterruptCall =
      if t ≠ "" ∧ s.interruptFired = false then 1 else 0 := by
  have h1 := bargeEffects_count s t
  have h2 := displayUpdate_no_interrupt s t f
  simp only [perceptionStep, List.countP_append, h1, h2]
  split <;> simp [isInterruptCall] <;>
    (intro a _ _ ha; subst ha; rfl)

theorem perceptionStep_fired_nonfinal (s : PerceptionState) (t : String) :
    (perceptionStep s t false).1.interruptFired = (s.interruptFired || !(t == "")) := by
  simp [perceptionStep]

theorem perceptionStep_fired_final (s : PerceptionState) (t : String) :
    (perceptionStep s t true).1.interruptFired = false := by
  simp [perceptionStep]

theorem claimedBargeCounts_cons (t0 : String) (f0 : Bool)
    (rest : List (String × Bool)) :
    claimedBargeCounts ((t0, f0) :: rest) =
      (if t0 ≠ "" then 1 else 0) ::
      (if t0 ≠ "" then List.replicate rest.length 0 else claimedBargeCounts rest) := by
  by_cases h : t0 ≠ ""
  · simp only [claimedBargeCounts, List.length_cons, List.range_succ_eq_map,
      List.map_cons, List.map_map, List.findIdx_cons, if_pos h]
    simp [h, Function.comp, List.eq_replicate_iff]
  · simp only [claimedBargeCounts, List.length_cons, List.range_succ_eq_map,
      List.map_cons, List.map_map, List.findIdx_cons, if_neg h]
    simp [h, Function.comp]

theorem runPerception_counts_fired (t : String) :
    ∀ (pre : List (String × Bool)), (∀ x ∈ pre, x.2 = false) →
    ∀ s : PerceptionState, s.interruptFired = true →
    ((runPerception s (pre ++ [(t, true)])).2.map
        (fun es => es.countP isInterruptCall) =
      List.replicate (pre.length + 1) 0) ∧
    (runPerception s (pre ++ [(t, true)])).1.interruptFired = false := by
  intro pre
  induction pre with
  | nil =>
    intro _ s hs
    refine ⟨?_, ?_⟩
    · simp [runPerception, perceptionStep_interrupt_count, hs]
    · simp [runPerception, perceptionStep_fired_final]
  | cons x rest ih =>
    intro hpre s hs
    obtain ⟨t0, f0⟩ := x
    have hf0 : f0 = false := hpre (t0, f0) (by simp)
    subst hf0
    have hfired : (perceptionStep s t0 false).1.interruptFired = true := by
      rw [perceptionStep_fired_nonfinal, hs]; simp
    have ihh := ih (fun y hy => hpre y (by simp [hy])) _ hfired
    refine ⟨?_, ihh.2⟩
    simp [runPerception, perceptionStep_interrupt_count, hs, ihh.1,
      List.replicate_succ]

theorem runPerception_counts_unfired (t : String) :
    ∀ (pre : List (String × Bool)), (∀ x ∈ pre, x.2 = false) →
    ∀ s : PerceptionState, s.interruptFired = false →
    ((runPerception s (pre ++ [(t, true)])).2.map
        (fun es => es.countP isInterruptCall) =
      claimedBargeCounts (pre ++ [(t, true)])) ∧
    (runPerception s (pre ++ [(t, true)])).1.interruptFired = false := by
  intro pre
  induction pre with
  | nil =>
    intro _ s hs
    refine ⟨?_, ?_⟩
    · by_cases ht : t = "" <;>
        simp [runPerception, perceptionStep_interrupt_count, hs,
          claimedBargeCounts, List.findIdx_cons, ht] <;>
        decide
    · simp [runPerception, perceptionStep_fired_final]
  | cons x rest ih =>
    intro hpre s hs
    obtain ⟨t0, f0⟩ := x
    have hf0 : f0 = false := hpre (t0, f0) (by simp)
    subst hf0
    by_cases h0 : t0 = ""
    · subst h0
      have hfired : (perceptionStep s "" false).1.interruptFired = false := by
        rw [perceptionStep_fired_nonfinal, hs]; simp
      have ihh := ih (fun y hy => hpre y (by simp [hy])) _ hfired
      refine ⟨?_, ihh.2⟩
      simp [runPerception, perceptionStep_interrupt_count, hs, ihh.1,
        claimedBargeCounts_cons]
    · have hfired : (perceptionStep s t0 false).1.interruptFired = true := by
        rw [perceptionStep_fired_nonfinal, hs]
        simp [h0]
      have hz := runPerception_counts_fired t rest
        (fun y hy => hpre y (by simp [hy])) _ hfired
      refine ⟨?_, hz.2⟩
      simp [runPerception, perceptionStep_interrupt_count, hs, hz.1,
        claimedBargeCounts_cons, h0]

theorem claimedBargeCounts_sum :
    ∀ frames : List (String × Bool),
    (claimedBargeCounts frames).sum =
      if frames.any (fun x => !(x.1 == "")) then 1 else 0 := by
  intro frames
  induction frames with
  | nil => simp [claimedBargeCounts]
  | cons x rest ih =>
    obtain ⟨t0, f0⟩ := x
    rw [claimedBargeCounts_cons]
    by_cases h0 : t0 = ""
    · subst h0
      have hbeq : (("" : String) == "") = true := by decide
      simp only [List.any_cons, hbeq, Bool.not_true, Bool.false_or, List.sum_cons]
      simpa using ih
    · simp [h0, List.sum_replicate]

/-- **C7.** Within one utterance (non-final frames followed by one endpoint
frame), starting from a reset perception state, the barge-in callback is
invoked exactly once, at the first processed frame whose recognized text is
non-empty, and never again for later frames of the same utterance; for an
utterance in which no frame yields non-empty text it is never invoked; and
the endpoint frame resets the flag, so the callback can fire again only in
a later utterance. -/
theorem barge_in_once_per_utterance (n : Nat) (pre : List (String × Bool))
    (t : String) (hpre : ∀ x ∈ pre, x.2 = false) :
    ((runPerception (resetState n) (pre ++ [(t, true)])).2.map
        (fun es => es.countP isInterruptCall) =
      claimedBargeCounts (pre ++ [(t, true)])) ∧
    (((runPerception (resetState n) (pre ++ [(t, true)])).2.flatten).countP
        isInterruptCall =
      if (pre ++ [(t, true)]).any (fun x => !(x.1 == "")) then 1 else 0) ∧
    (runPerception (resetState n) (pre ++ [(t, true)])).1.interruptFired = false := by
  have h := runPerception_counts_unfired t pre hpre (resetState n) rfl
  refine ⟨h.1, ?_, h.2⟩
  rw [List.countP_flatten, h.1, claimedBargeCounts_sum]

/-- Concrete instantiation of `barge_in_once_per_utterance`: an utterance
with two identical non-empty partials then an endpoint fires the callback
only at the first partial. -/
theorem barge_in_once_per_utterance_witness :
    (∀ x ∈ [(("" : String), false), ("hi", false), ("hi", false)], x.2 = false) ∧
    ((runPerception (resetState 0)
        ([(("" : String), false), ("hi", false), ("hi", false)] ++ [("hi there", true)])).2.map
        (fun es => es.countP isInterruptCall) =
      claimedBargeCounts
        ([(("" : String), false), ("hi", false), ("hi", false)] ++ [("hi there", true)])) := by
  refine ⟨by decide, ?_⟩
  exact (barge_in_once_per_utterance 0
    [(("" : String), false), ("hi", false), ("hi", false)] "hi there" (by decide)).1

/-- Invariant tying the per-utterance message id to the fresh-id counter:
either no id has been allocated yet and the next fresh id is `n`, or the
id `n` has been allocated and the counter moved past it. -/
def MsgInv (n : Nat) (s : PerceptionState) : Prop :=
  (s.currentMsgId = none ∧ s.nextId = n) ∨
  (s.currentMsgId = some n ∧ s.nextId = n + 1)

theorem displayUpdate_spec (s : PerceptionState) (t : String) (f : Bool) :
    (¬(t ≠ s.lastText ∨ (f = true ∧ t ≠ "")) ∧
      displayUpdate s t f = (s.lastText, s.currentMsgId, s.nextId, [])) ∨
    (t = "" ∧ displayUpdate s t f = (t, s.currentMsgId, s.nextId, [])) ∨
    (t ≠ "" ∧ (∃ m, s.currentMsgId = some m ∧
      displayUpdate s t f = (t, some m, s.nextId,
        [PerceptionEffect.putDisplay t f m]))) ∨
    (t ≠ "" ∧ s.currentMsgId = none ∧
      displayUpdate s t f = (t, some s.nextId, s.nextId + 1,
        [PerceptionEffect.putDisplay t f s.nextId])) := by
  unfold displayUpdate
  split <;> rename_i hemit
  · split <;> rename_i ht
    · cases hm : s.currentMsgId with
      | none => exact Or.inr (Or.inr (Or.inr ⟨ht, rfl, rfl⟩))
      | some m => exact Or.inr (Or.inr (Or.inl ⟨ht, m, rfl, rfl⟩))
    · exact Or.inr (Or.inl ⟨not_not.mp ht, rfl⟩)
  · exact Or.inl ⟨hemit, rfl⟩

theorem mem_bargeEffects (s : PerceptionState) (t : String)
    (e : PerceptionEffect) (he : e ∈ bargeEffects s t) :
    e = PerceptionEffect.interruptCallback := by
  unfold bargeEffects at he
  split at he <;> simp_all

theorem mem_perceptionStep (s : PerceptionState) (t : String) (f : Bool)
    (e : PerceptionEffect) (he : e ∈ (perceptionStep s t f).2) :
    e ∈ bargeEffects s t ∨ e ∈ (displayUpdate s t f).2.2.2 ∨
      (f = true ∧ t ≠ "" ∧
        e = PerceptionEffect.putBrainEvent t (displayUpdate s t f).2.1) := by
  simp only [perceptionStep, List.mem_append] at he
  rcases he with (hb | hd) | hbr
  · exact Or.inl hb
  · exact Or.inr (Or.inl hd)
  · split at hbr
    · rename_i hc
      simp only [List.mem_singleton] at hbr
      exact Or.inr (Or.inr ⟨hc.1, hc.2, hbr⟩)
    · simp at hbr

theorem perceptionStep_display_id (n : Nat) (s : PerceptionState)
    (t : String) (f : Bool) (hs : MsgInv n s) :
    ∀ e ∈ (perceptionStep s t f).2, ∀ m, displayId e = some m → m = n := by
  intro e he m hm
  rcases mem_perceptionStep s t f e he with hb | hd | ⟨_, _, hbr⟩
  · rw [mem_bargeEffects s t e hb] at hm
    simp [displayId] at hm
  · rcases displayUpdate_spec s t f with ⟨_, hA⟩ | ⟨_, hB⟩ |
      ⟨_, m', hm', hC⟩ | ⟨_, hnone, hD⟩
    · rw [hA] at hd; simp at hd
    · rw [hB] at hd; simp at hd
    · rw [hC] at hd
      simp only [List.mem_singleton] at hd
      subst hd
      simp only [displayId, Option.some.injEq] at hm
      rcases hs with ⟨h1, _⟩ | ⟨h1, _⟩
      · rw [h1] at hm'; exact absurd hm' (by simp)
      · rw [h1] at hm'
        simp only [Option.some.injEq] at hm'
        omega
    · rw [hD] at hd
      simp only [List.mem_singleton] at hd
      subst hd
      simp only [displayId, Option.some.injEq] at hm
      rcases hs with ⟨_, h2⟩ | ⟨h1, _⟩
      · omega
      · rw [h1] at hnone; exact absurd hnone (by simp)
  · rw [hbr] at hm
    simp [displayId] at hm

theorem perceptionStep_brain_id (n : Nat) (s : PerceptionState)
    (t : String) (f : Bool) (hs : MsgInv n s) :
    ∀ tx mid, PerceptionEffect.putBrainEvent tx mid ∈ (perceptionStep s t f).2 →
      mid = some n := by
  intro tx mid he
  rcases mem_perceptionStep s t f _ he with hb | hd | ⟨hf, ht, hbr⟩
  · exact absurd (mem_bargeEffects s t _ hb) (by simp)
  · rcases displayUpdate_spec s t f with ⟨_, hA⟩ | ⟨_, hB⟩ |
      ⟨_, m', _, hC⟩ | ⟨_, _, hD⟩ <;>
      [rw [hA] at hd; rw [hB] at hd; rw [hC] at hd; rw [hD] at hd] <;>
      simp at hd
  · simp only [PerceptionEffect.putBrainEvent.injEq] at hbr
    rcases displayUpdate_spec s t f with ⟨hA, hAe⟩ | ⟨hB, _⟩ |
      ⟨_, m', hm', hC⟩ | ⟨_, hnone, hD⟩
    · exact absurd (Or.inr ⟨hf, ht⟩) hA
    · exact absurd hB ht
    · rw [hC] at hbr
      rcases hs with ⟨h1, _⟩ | ⟨h1, _⟩
      · rw [h1] at hm'; exact absurd hm' (by simp)
      · rw [h1] at hm'
        simp only [Option.some.injEq] at hm'
        rw [hbr.2, hm']
    · rw [hD] at hbr
      rcases hs with ⟨_, h2⟩ | ⟨h1, _⟩
      · rw [hbr.2, h2]
      · rw [h1] at hnone; exact absurd hnone (by simp)

theorem perceptionStep_nonfinal_state (s : PerceptionState) (t : String) :
    (perceptionStep s t false).1 =
      { lastText := (displayUpdate s t false).1,
        interruptFired := s.interruptFired || !(t == ""),
        currentMsgId := (displayUpdate s t false).2.1,
        nextId := (displayUpdate s t false).2.2.1 } := rfl

theorem perceptionStep_final_state (s : PerceptionState) (t : String) :
    (perceptionStep s t true).1 =
      { lastText := "", interruptFired := false, currentMsgId := none,
        nextId := (displayUpdate s t true).2.2.1 } := rfl

theorem perceptionStep_nonfinal_inv (n : Nat) (s : PerceptionState)
    (t : String) (hs : MsgInv n s) : MsgInv n (perceptionStep s t false).1 := by
  rw [MsgInv, perceptionStep_nonfinal_state]
  rcases displayUpdate_spec s t false with ⟨_, hA⟩ | ⟨_, hB⟩ |
    ⟨_, m', hm', hC⟩ | ⟨_, hnone, hD⟩
  · rw [hA]; exact hs
  · rw [hB]; exact hs
  · rw [hC]
    rcases hs with ⟨h1, _⟩ | ⟨h1, h2⟩
    · rw [h1] at hm'; exact absurd hm' (by simp)
    · rw [h1] at hm'
      simp only [Option.some.injEq] at hm'
      subst hm'
      exact Or.inr ⟨rfl, h2⟩
  · rw [hD]
    rcases hs with ⟨_, h2⟩ | ⟨h1, _⟩
    · subst h2; exact Or.inr ⟨rfl, rfl⟩
    · rw [h1] at hnone; exact absurd hnone (by simp)

theorem perceptionStep_nonfinal_persist (s : PerceptionState) (t : String)
    (m : Nat) (hm : s.currentMsgId = some m) :
    (perceptionStep s t false).1.currentMsgId = some m := by
  rw [perceptionStep_nonfinal_state]
  rcases displayUpdate_spec s t false with ⟨_, hA⟩ | ⟨_, hB⟩ |
    ⟨_, m', hm', hC⟩ | ⟨_, hnone, hD⟩
  · rw [hA]; exact hm
  · rw [hB]; exact hm
  · rw [hC]
    simp only
    rw [hm] at hm'
    simp only [Option.some.injEq] at hm'
    rw [hm']
  · rw [hm] at hnone; exact absurd hnone (by simp)

theorem perceptionStep_nonfinal_alloc (n : Nat) (s : PerceptionState)
    (t : String) (hs : MsgInv n s)
    (hd : ∃ e ∈ (perceptionStep s t false).2, (displayId e).isSome) :
    (perceptionStep s t false).1.currentMsgId = some n := by
  rw [perceptionStep_nonfinal_state]
  obtain ⟨e, he, hsome⟩ := hd
  rcases mem_perceptionStep s t false e he with hb | hdd | ⟨hf, _, _⟩
  · rw [mem_bargeEffects s t e hb] at hsome; simp [displayId] at hsome
  · rcases displayUpdate_spec s t false with ⟨_, hA⟩ | ⟨_, hB⟩ |
      ⟨_, m', hm', hC⟩ | ⟨_, hnone, hD⟩
    · rw [hA] at hdd; simp at hdd
    · rw [hB] at hdd; simp at hdd
    · rw [hC]
      rcases hs with ⟨h1, _⟩ | ⟨h1, _⟩
      · rw [h1] at hm'; exact absurd hm' (by simp)
      · rw [h1] at hm'
        simp only [Option.some.injEq] at hm'
        simp [hm']
    · rw [hD]
      rcases hs with ⟨_, h2⟩ | ⟨h1, _⟩
      · simp [h2]
      · rw [h1] at hnone; exact absurd hnone (by simp)
  · simp at hf

theorem perceptionStep_nonfinal_no_brain (s : PerceptionState) (t : String) :
    ∀ e ∈ (perceptionStep s t false).2, isBrainEvent e = false := by
  intro e he
  rcases mem_perceptionStep s t false e he with hb | hd | ⟨hf, _, _⟩
  · rw [mem_bargeEffects s t e hb]; rfl
  · rcases displayUpdate_spec s t false with ⟨_, hA⟩ | ⟨_, hB⟩ |
      ⟨_, m', _, hC⟩ | ⟨_, _, hD⟩ <;>
      [rw [hA] at hd; rw [hB] at hd; rw [hC] at hd; rw [hD] at hd] <;>
      simp at hd <;> subst hd <;> rfl
  · simp at hf

theorem perceptionStep_final_nextId (n : Nat) (s : PerceptionState)
    (t : String) (hs : MsgInv n s) :
    ((perceptionStep s t true).1.nextId = n ∨
      (perceptionStep s t true).1.nextId = n + 1) ∧
    (t ≠ "" → (perceptionStep s t true).1.nextId = n + 1) ∧
    (s.currentMsgId = some n → (perceptionStep s t true).1.nextId = n + 1) := by
  rw [perceptionStep_final_state]
  simp only
  rcases displayUpdate_spec s t true with ⟨hA, hAe⟩ | ⟨hB, hBe⟩ |
    ⟨ht, m', hm', hC⟩ | ⟨ht, hnone, hD⟩
  · rw [hAe]
    simp only
    have ht : t = "" := by
      by_cases h : t = ""
      · exact h
      · exact absurd (Or.inr ⟨rfl, h⟩) hA
    rcases hs with ⟨h1, h2⟩ | ⟨h1, h2⟩
    · exact ⟨Or.inl h2, fun h => absurd ht h, fun hc => by rw [h1] at hc; simp at hc⟩
    · exact ⟨Or.inr h2, fun h => absurd ht h, fun _ => h2⟩
  · rw [hBe]
    simp only
    rcases hs with ⟨h1, h2⟩ | ⟨h1, h2⟩
    · exact ⟨Or.inl h2, fun h => absurd hB h, fun hc => by rw [h1] at hc; simp at hc⟩
    · exact ⟨Or.inr h2, fun h => absurd hB h, fun _ => h2⟩
  · rw [hC]
    simp only
    rcases hs with ⟨h1, _⟩ | ⟨_, h2⟩
    · rw [h1] at hm'; exact absurd hm' (by simp)
    · exact ⟨Or.inr h2, fun _ => h2, fun _ => h2⟩
  · rw [hD]
    simp only
    rcases hs with ⟨_, h2⟩ | ⟨h1, _⟩
    · rw [h2]
      exact ⟨Or.inr rfl, fun _ => rfl, fun _ => rfl⟩
    · rw [h1] at hnone; exact absurd hnone (by simp)

theorem runPerception_append (s : PerceptionState) :
    ∀ (l1 l2 : List (String × Bool)),
    runPerception s (l1 ++ l2) =
      ((runPerception (runPerception s l1).1 l2).1,
       (runPerception s l1).2 ++ (runPerception (runPerception s l1).1 l2).2) := by
  intro l1
  induction l1 generalizing s with
  | nil => intro l2; simp [runPerception]
  | cons x rest ih =>
    intro l2
    obtain ⟨t, f⟩ := x
    simp [runPerception, ih]

theorem runPerception_prefix (n : Nat) :
    ∀ (pre : List (String × Bool)), (∀ x ∈ pre, x.2 = false) →
    ∀ s : PerceptionState, MsgInv n s →
    MsgInv n (runPerception s pre).1 ∧
    (∀ e ∈ ((runPerception s pre).2).flatten, ∀ m, displayId e = some m → m = n) ∧
    (∀ e ∈ ((runPerception s pre).2).flatten, isBrainEvent e = false) ∧
    ((∃ e ∈ ((runPerception s pre).2).flatten, (displayId e).isSome) →
      (runPerception s pre).1.currentMsgId = some n) ∧
    (s.currentMsgId = some n → (runPerception s pre).1.currentMsgId = some n) := by
  intro pre
  induction pre with
  | nil =>
    intro _ s hs
    refine ⟨hs, ?_, ?_, ?_, ?_⟩ <;> simp [runPerception]
  | cons x rest ih =>
    intro hpre s hs
    obtain ⟨t0, f0⟩ := x
    have hf0 : f0 = false := hpre (t0, f0) (by simp)
    subst hf0
    have hinv1 := perceptionStep_nonfinal_inv n s t0 hs
    have ihh := ih (fun y hy => hpre y (by simp [hy])) _ hinv1
    have hflat : ((runPerception s ((t0, false) :: rest)).2).flatten =
        (perceptionStep s t0 false).2 ++
          ((runPerception (perceptionStep s t0 false).1 rest).2).flatten := by
      simp [runPerception]
    have hstate : (runPerception s ((t0, false) :: rest)).1 =
        (runPerception (perceptionStep s t0 false).1 rest).1 := by
      simp [runPerception]
    refine ⟨by rw [hstate]; exact ihh.1, ?_, ?_, ?_, ?_⟩
    · intro e he m hm
      rw [hflat] at he
      rcases List.mem_append.mp he with h1 | h2
      · exact perceptionStep_display_id n s t0 false hs e h1 m hm
      · exact ihh.2.1 e h2 m hm
    · intro e he
      rw [hflat] at he
      rcases List.mem_append.mp he with h1 | h2
      · exact perceptionStep_nonfinal_no_brain s t0 e h1
      · exact ihh.2.2.1 e h2
    · intro hd
      rw [hstate]
      obtain ⟨e, he, hsome⟩ := hd
      rw [hflat] at he
      rcases List.mem_append.mp he with h1 | h2
      · exact ihh.2.2.2.2 (perceptionStep_nonfinal_alloc n s t0 hs ⟨e, h1, hsome⟩)
      · exact ihh.2.2.2.1 ⟨e, h2, hsome⟩
    · intro hc
      rw [hstate]
      exact ihh.2.2.2.2 (perceptionStep_nonfinal_persist s t0 n hc)

theorem utterance_spec (n : Nat) (pre : List (String × Bool)) (t : String)
    (hpre : ∀ x ∈ pre, x.2 = false) (s : PerceptionState) (hs : MsgInv n s) :
    (∀ e ∈ ((runPerception s (pre ++ [(t, true)])).2).flatten,
      ∀ m, displayId e = some m → m = n) ∧
    (∀ tx mid,
      PerceptionEffect.putBrainEvent tx mid ∈
        ((runPerception s (pre ++ [(t, true)])).2).flatten → mid = some n) ∧
    ((runPerception s (pre ++ [(t, true)])).1 =
      resetState ((runPerception s (pre ++ [(t, true)])).1.nextId)) ∧
    ((runPerception s (pre ++ [(t, true)])).1.nextId = n ∨
      (runPerception s (pre ++ [(t, true)])).1.nextId = n + 1) ∧
    ((∃ e ∈ ((runPerception s (pre ++ [(t, true)])).2).flatten,
        (displayId e).isSome) →
      (runPerception s (pre ++ [(t, true)])).1.nextId = n + 1) := by
  have hp := runPerception_prefix n pre hpre s hs
  set s1 := (runPerception s pre).1 with hs1
  have happ := runPerception_append s pre [(t, true)]
  have hrun1 : runPerception s1 [(t, true)] =
      ((perceptionStep s1 t true).1, [(perceptionStep s1 t true).2]) := by
    simp [runPerception]
  have hstate : (runPerception s (pre ++ [(t, true)])).1 =
      (perceptionStep s1 t true).1 := by
    rw [happ, hrun1]
  have hflat : ((runPerception s (pre ++ [(t, true)])).2).flatten =
      ((runPerception s pre).2).flatten ++ (perceptionStep s1 t true).2 := by
    rw [happ, hrun1]
    simp
  have hfin := perceptionStep_final_nextId n s1 t hp.1
  refine ⟨?_, ?_, ?_, ?_, ?_⟩
  · intro e he m hm
    rw [hflat] at he
    rcases List.mem_append.mp he with h1 | h2
    · exact hp.2.1 e h1 m hm
    · exact perceptionStep_display_id n s1 t true hp.1 e h2 m hm
  · intro tx mid he
    rw [hflat] at he
    rcases List.mem_append.mp he with h1 | h2
    · exact absurd (hp.2.2.1 _ h1) (by simp [isBrainEvent])
    · exact perceptionStep_brain_id n s1 t true hp.1 tx mid h2
  · rw [hstate, perceptionStep_final_state]
    rfl
  · rw [hstate]
    exact hfin.1
  · intro hd
    rw [hstate]
    obtain ⟨e, he, hsome⟩ := hd
    rw [hflat] at he
    rcases List.mem_append.mp he with h1 | h2
    · exact hfin.2.2 (hp.2.2.2.1 ⟨e, h1, hsome⟩)
    · rcases mem_perceptionStep s1 t true e h2 with hb | hdd | ⟨_, ht, hbr⟩
      · rw [mem_bargeEffects s1 t e hb] at hsome
        simp [displayId] at hsome
      · rcases displayUpdate_spec s1 t true with ⟨_, hA⟩ | ⟨_, hB⟩ |
          ⟨ht, m', _, hC⟩ | ⟨ht, _, hD⟩
        · rw [hA] at hdd; simp at hdd
        · rw [hB] at hdd; simp at hdd
        · exact hfin.2.1 ht
        · exact hfin.2.1 ht
      · rw [hbr] at hsome
        simp [displayId] at hsome

theorem displayUpdate_reset (n : Nat) (tA : String) (fA : Bool) (ht : tA ≠ "") :
    displayUpdate (resetState n) tA fA =
      (tA, some n, n + 1, [PerceptionEffect.putDisplay tA fA n]) := by
  unfold displayUpdate resetState
  rw [if_pos (Or.inl ht), if_pos ht]

theorem perceptionStep_first_display (n : Nat) (tA : String) (fA : Bool)
    (ht : tA ≠ "") :
    PerceptionEffect.putDisplay tA fA n ∈ (perceptionStep (resetState n) tA fA).2 := by
  simp only [perceptionStep, displayUpdate_reset n tA fA ht]
  simp

theorem perceptionStep_empty_frame (n : Nat) :
    perceptionStep (resetState n) "" false = (resetState n, []) := rfl

theorem runPerception_empty_prefix (n : Nat) :
    ∀ (emptyPre : List (String × Bool)),
    (∀ x ∈ emptyPre, x.1 = "" ∧ x.2 = false) →
    ∀ l, runPerception (resetState n) (emptyPre ++ l) =
      ((runPerception (resetState n) l).1,
       List.replicate emptyPre.length [] ++ (runPerception (resetState n) l).2) := by
  intro emptyPre
  induction emptyPre with
  | nil => intro _ l; simp
  | cons x rest ih =>
    intro hep l
    obtain ⟨tx, fx⟩ := x
    obtain ⟨he1, he2⟩ := hep (tx, fx) (by simp)
    subst he1; subst he2
    simp [runPerception, perceptionStep_empty_frame,
      ih (fun y hy => hep y (by simp [hy])), List.replicate_succ]

/-- **C6.** For every utterance (frames from one state reset up to and
including the endpoint frame), every `DisplayMessage` emitted carries one
and the same message id, allocated at the first frame with non-empty
recognized text (all earlier frames emit nothing); the `BrainInputEvent`
emitted at a non-empty endpoint carries that same id in its metadata; and
the messages of the next utterance carry a different, freshly allocated
id. -/
theorem transcript_id_stability (n : Nat) (pre1 pre2 : List (String × Bool))
    (t1 t2 : String)
    (h1 : ∀ x ∈ pre1, x.2 = false) (h2 : ∀ x ∈ pre2, x.2 = false) :
    (∀ e ∈ ((runPerception (resetState n) (pre1 ++ [(t1, true)])).2).flatten,
      (∀ m, displayId e = some m → m = n) ∧
      (∀ tx mid, e = PerceptionEffect.putBrainEvent tx mid → mid = some n)) ∧
    (∀ emptyPre tA fA rest2,
      pre1 ++ [(t1, true)] = emptyPre ++ (tA, fA) :: rest2 →
      (∀ x ∈ emptyPre, x.1 = "" ∧ x.2 = false) →
      tA ≠ "" →
      ((runPerception (resetState n) (pre1 ++ [(t1, true)])).2.take
          emptyPre.length = List.replicate emptyPre.length []) ∧
      PerceptionEffect.putDisplay tA fA n ∈
        ((runPerception (resetState n) (pre1 ++ [(t1, true)])).2).flatten) ∧
    (∃ n2,
      (∀ e ∈ ((runPerception
          ((runPerception (resetState n) (pre1 ++ [(t1, true)])).1)
          (pre2 ++ [(t2, true)])).2).flatten,
        (∀ m, displayId e = some m → m = n2) ∧
        (∀ tx mid, e = PerceptionEffect.putBrainEvent tx mid → mid = some n2)) ∧
      ((∃ e ∈ ((runPerception (resetState n) (pre1 ++ [(t1, true)])).2).flatten,
          (displayId e).isSome) → n2 ≠ n)) := by
  have hu1 := utterance_spec n pre1 t1 h1 (resetState n) (Or.inl ⟨rfl, rfl⟩)
  refine ⟨?_, ?_, ?_⟩
  · intro e he
    exact ⟨fun m hm => hu1.1 e he m hm,
           fun tx mid heq => hu1.2.1 tx mid (heq ▸ he)⟩
  · intro emptyPre tA fA rest2 heq hep ht
    have hsplit := runPerception_empty_prefix n emptyPre hep ((tA, fA) :: rest2)
    rw [heq, hsplit]
    constructor
    · simp
    · have hmem := perceptionStep_first_display n tA fA ht
      simp only [runPerception]
      simp [List.flatten_append]
      exact Or.inl hmem
  · refine ⟨(runPerception (resetState n) (pre1 ++ [(t1, true)])).1.nextId, ?_, ?_⟩
    · have hinv : MsgInv
          ((runPerception (resetState n) (pre1 ++ [(t1, true)])).1.nextId)
          ((runPerception (resetState n) (pre1 ++ [(t1, true)])).1) := by
        rw [hu1.2.2.1]
        exact Or.inl ⟨rfl, rfl⟩
      have hu2 := utterance_spec _ pre2 t2 h2 _ hinv
      intro e he
      exact ⟨fun m hm => hu2.1 e he m hm,
             fun tx mid heq => hu2.2.1 tx mid (heq ▸ he)⟩
    · intro hdisp
      rw [hu1.2.2.2.2 hdisp]
      omega

/-- Concrete instantiation of `transcript_id_stability`: two utterances,
the first with an empty-text frame, two partials, and a final. -/
theorem transcript_id_stability_witness :
    (∀ x ∈ [(("" : String), false), ("he", false), ("hello", false)], x.2 = false) ∧
    (∃ n2,
      (∀ e ∈ ((runPerception
          ((runPerception (resetState 7)
            ([(("" : String), false), ("he", false), ("hello", false)] ++
              [("hello world", true)])).1)
          ([(("hi" : String), false)] ++ [("hi there", true)])).2).flatten,
        (∀ m, displayId e = some m → m = n2) ∧
        (∀ tx mid, e = PerceptionEffect.putBrainEvent tx mid → mid = some n2)) ∧
      ((∃ e ∈ ((runPerception (resetState 7)
          ([(("" : String), false), ("he", false), ("hello", false)] ++
            [("hello world", true)])).2).flatten,
          (displayId e).isSome) → n2 ≠ 7)) := by
  refine ⟨by decide, ?_⟩
  exact (transcript_id_stability 7
    [(("" : String), false), ("he", false), ("hello", false)]
    [(("hi" : String), false)] "hello world" "hi there"
    (by decide) (by decide)).2.2

/-! ## Interrupt discipline (`AudioOutput.interrupt`) -/

/-- The queues and flag touched by `AudioOutput.interrupt`:
`runtime.interrupt_event`, `runtime.audio_output_queue`, and the audio
output subsystem's internal `_audio_chunk_queue`. -/
structure AudioOutputState where
  interruptFlag : Bool
  audioOutputQueue : List AudioOutputRequest
  audioChunkQueue : List (Option AudioChunk)
  deriving DecidableEq, Repr

/-- `AudioOutput.interrupt` (audio_output.py lines 79-85): set the
interrupt event and clear `audio_output_queue` under its mutex.  The
method does not touch `_audio_chunk_queue`. -/
def audioOutputInterrupt (s : AudioOutputState) : AudioOutputState :=
  { s with interruptFlag := true, audioOutputQueue := [] }

/-- **C3 counterexample.** A pending PCM chunk in the audio-chunk queue is
not discarded by an interrupt: `AudioOutput.interrupt` clears only the
audio-output queue, and the callback sink (which has no access to the
interrupt flag) keeps delivering chunks. -/
theorem interrupt_drains_counterexample :
    ¬ ((audioOutputInterrupt
        { interruptFlag := false,
          audioOutputQueue := [{ content := "x", language := "zh" }],
          audioChunkQueue :=
            [some { data := [1, 2], sample_rate := 24000 }] }).audioChunkQueue
      = []) := by
  decide

/-- **C3 (amended).** After any interrupt trigger routed through
`AudioOutput.interrupt()`, the shared interrupt flag is set and every
pending `TTSRequest` in the audio-output queue is discarded; but the
audio-chunk queue is left untouched by `interrupt()`, and the callback
sink — which never reads the interrupt flag — delivers every pending chunk
to its `on_chunk` callback rather than discarding it (the chunk queue only
empties by normal consumption). -/
theorem interrupt_behavior (s : AudioOutputState) :
    (audioOutputInterrupt s).interruptFlag = true ∧
    (audioOutputInterrupt s).audioOutputQueue = [] ∧
    (audioOutputInterrupt s).audioChunkQueue = s.audioChunkQueue ∧
    (∀ c, some c ∈ (audioOutputInterrupt s).audioChunkQueue →
      SinkCall.onChunk c ∈ sinkRun (audioOutputInterrupt s).audioChunkQueue) := by
  refine ⟨rfl, rfl, rfl, ?_⟩
  intro c hc
  exact List.mem_map.mpr ⟨some c, hc, rfl⟩

/-- Concrete instantiation of `interrupt_behavior`: one pending request
and one pending chunk; the request queue is emptied, the chunk stays
queued and is delivered by the sink. -/
theorem interrupt_behavior_witness :
    ((audioOutputInterrupt
        { interruptFlag := false,
          audioOutputQueue := [{ content := "x", language := "zh" }],
          audioChunkQueue :=
            [some { data := [1, 2], sample_rate := 24000 }] }).audioOutputQueue
      = []) ∧
    SinkCall.onChunk { data := [1, 2], sample_rate := 24000 } ∈
      sinkRun (audioOutputInterrupt
        { interruptFlag := false,
          audioOutputQueue := [{ content := "x", language := "zh" }],
          audioChunkQueue :=
            [some { data := [1, 2], sample_rate := 24000 }] }).audioChunkQueue :=
  ⟨(interrupt_behavior _).2.1,
   (interrupt_behavior _).2.2.2 _ (by decide)⟩

/-! ## Bounded frame queue (`QueueAudioSource.push`) -/

/-- `QueueAudioSource.push` (queue_source.py lines 43-48):
`put_nowait(frame)`, dropping the incoming frame (with a warning log) when
the bounded queue is full. -/
def queuePush {α : Type} (maxsize : Nat) (q : List α) (x : α) : List α :=
  if q.length < maxsize then q ++ [x] else q

theorem queuePush_foldl {α : Type} (m : Nat) :
    ∀ (frames : List α) (q : List α), q.length ≤ m →
    frames.foldl (queuePush m) q = q ++ frames.take (m - q.length) := by
  intro frames
  induction frames with
  | nil => intro q _; simp
  | cons f rest ih =>
    intro q hq
    by_cases hlt : q.length < m
    · have hstep : queuePush m q f = q ++ [f] := if_pos hlt
      rw [List.foldl_cons, hstep, ih (q ++ [f]) (by simp; omega)]
      have harith : m - q.length = (m - (q ++ [f]).length) + 1 := by
        simp only [List.length_append, List.length_singleton]
        omega
      rw [harith, List.take_succ_cons]
      simp
    · have heq : q.length = m := by omega
      have hstep : queuePush m q f = q := if_neg hlt
      rw [List.foldl_cons, hstep, ih q hq]
      rw [heq]
      simp

/-- **C9 counterexample.** Pushing 401 distinct frames into the bounded
frame queue (`max_frames_queue = 400`) leaves the queue at its maximum
size, but the retained frames are the 400 OLDEST ones (`range 400`), not
the most recent 400 (`(range 401).drop 1`): `push` drops the incoming
frame when the queue is full, i.e. the policy is drop-newest, not
drop-oldest. -/
theorem drop_oldest_counterexample :
    ((List.range 401).foldl (queuePush 400) []).length = 400 ∧
    ¬ ((List.range 401).foldl (queuePush 400) [] = (List.range 401).drop 1) := by
  constructor
  · rw [queuePush_foldl 400 (List.range 401) [] (by simp)]
    simp
  · rw [queuePush_foldl 400 (List.range 401) [] (by simp)]
    intro h
    have h0 := congrArg (fun l => l[0]?) h
    simp [List.getElem?_range, List.getElem?_drop] at h0

/-- **C9 (amended).** Under sustained overproduction the bounded frame
queue maintains its maximum size, and the frames retained are the EARLIEST
ones pushed: `QueueAudioSource.push` drops the incoming frame when the
queue is full (drop-newest), so after pushing any sequence of frames into
an empty queue of capacity `m` the queue holds exactly the first `m`
frames. -/
theorem drop_newest_under_load {α : Type} (m : Nat) (frames : List α) :
    frames.foldl (queuePush m) [] = frames.take m ∧
    (frames.foldl (queuePush m) []).length = min frames.length m := by
  have h := queuePush_foldl m frames [] (by simp)
  simp only [List.nil_append, Nat.sub_zero] at h
  refine ⟨h, ?_⟩
  rw [h, List.length_take]
  simp [Nat.min_comm]

/-! ## Queue worker failure policy (`QueueWorker.run`) -/

/-- `QueueWorker.run` (worker.py lines 46-63): dequeue items until the
stop signal; each item is handled inside `try: handle(item) finally:
task_done()`.  There is no `except` clause, so an exception raised by
`handle` propagates out of the loop and the worker thread terminates.
Modelled over the finite list of items the queue yields, with
`raises item` telling whether `handle(item)` raises.  Returns the items
handled without error, the items left unconsumed, and whether the worker
died with an exception. -/
def workerRun {α : Type} (raises : α → Bool) : List α → List α × List α × Bool
  | [] => ([], [], false)
  | x :: rest =>
    if raises x then ([], rest, true)
    else
      let (ok, left, crashed) := workerRun raises rest
      (x :: ok, left, crashed)

/-- **C8 counterexample.** With two queued items where handling the first
raises, the worker run loop does not continue: the second item is left
unconsumed and the worker terminates with the exception (there is no
`except` around `handle` in `QueueWorker.run`, only a `finally` for
`task_done`).  The claim says subsequent items keep being consumed; here
the unconsumed remainder is `[2]`, not `[]`. -/
theorem worker_continues_counterexample :
    ¬ ((workerRun (fun n : Nat => n == 1) [1, 2]).2.1 = []) ∧
    (workerRun (fun n : Nat => n == 1) [1, 2]).2.2 = true := by
  decide

/-- **C8 (amended).** If `handle(item)` raises for one item, the exception
propagates out of `QueueWorker.run`: the items before the first raising
item are handled normally, the raising item's unit of work is abandoned,
and the worker thread terminates without consuming any later item.  (A
worker survives an error only when its own `handle` catches it, as
`Brain.handle` does; `StreamingPerception.handle` and `TTSWorker.handle`
let exceptions propagate.) -/
theorem worker_stops_on_error {α : Type} (raises : α → Bool) (items : List α) :
    (items.all (fun x => !(raises x)) = true →
      workerRun raises items = (items, [], false)) ∧
    (∀ pre x post, items = pre ++ x :: post →
      pre.all (fun y => !(raises y)) = true → raises x = true →
      workerRun raises items = (pre, post, true)) := by
  induction items with
  | nil =>
    refine ⟨fun _ => rfl, ?_⟩
    intro pre x post hsplit _ _
    exact absurd hsplit (by simp)
  | cons a rest ih =>
    constructor
    · intro hall
      simp only [List.all_cons, Bool.and_eq_true] at hall
      have hna : raises a = false := by
        cases h : raises a
        · rfl
        · rw [h] at hall; exact absurd hall.1 (by simp)
      simp only [workerRun, hna, Bool.false_eq_true, if_false, ih.1 hall.2]
    · intro pre x post hsplit hpre hx
      cases pre with
      | nil =>
        simp only [List.nil_append] at hsplit
        cases hsplit
        simp [workerRun, hx]
      | cons p ptail =>
        simp only [List.cons_append, List.cons.injEq] at hsplit
        obtain ⟨hpa, hrest⟩ := hsplit
        subst hpa
        simp only [List.all_cons, Bool.and_eq_true] at hpre
        have hna : raises a = false := by
          cases h : raises a
          · rfl
          · rw [h] at hpre; exact absurd hpre.1 (by simp)
        simp only [workerRun, hna, Bool.false_eq_true, if_false,
          ih.2 ptail x post hrest hpre.2 hx]

/-- Concrete instantiation of `worker_stops_on_error`: items `[0, 1, 2]`
where handling `1` raises; `0` is handled, `2` is never consumed, the
worker dies. -/
theorem worker_stops_on_error_witness :
    ([0] : List Nat).all (fun y => !((fun n : Nat => n == 1) y)) = true ∧
    workerRun (fun n : Nat => n == 1) [0, 1, 2] = ([0], [2], true) :=
  ⟨by decide,
   (worker_stops_on_error (fun n : Nat => n == 1) [0, 1, 2]).2
     [0] 1 [2] rfl (by decide) (by decide)⟩

/-! ## Calculator tool (`tools/calculator.py`)

`CalculatorTool.execute` parses the input with `ast.parse(mode='eval')`
and folds the AST with `eval_`, which accepts `Constant`, `BinOp` and
`UnaryOp` nodes over the operator table
`{Add, Sub, Mult, Div, Pow, BitXor, USub}`; everything is wrapped in one
`try/except Exception` producing either a `result` or an `error` dict.

Numbers: Python ints are exact (`Int`); Python float results are modelled
as exact rationals (`ℚ`); float rounding, overflow, and complex results of
fractional powers are not modelled (the `pyPow` fractional-exponent branch
returns a placeholder value with Python's success/failure behaviour).
Float literals are not in the modelled AST. -/

inductive PyErr
  | syntaxError
  | typeError
  | zeroDivisionError
  | keyError
  deriving DecidableEq, Repr

/-- A Python value as produced by `eval_`. -/
inductive PyVal
  | vint (n : Int)
  | vrat (q : ℚ)
  | vstr (s : String)
  | vbool (b : Bool)
  | vnone
  deriving DecidableEq, Repr

/-- `ast.Constant` payloads reachable in the model. -/
inductive PyConst
  | intc (n : Int)
  | strc (s : String)
  | boolc (b : Bool)
  | nonec
  deriving DecidableEq, Repr

/-- Operator classes on `ast.BinOp` nodes: the six in the `operators`
dict plus `otherB` for any other class (`Mod`, `FloorDiv`, `BitAnd`, ...),
whose lookup `operators[type(node.op)]` raises `KeyError`. -/
inductive PyBinOp
  | add | sub | mult | div | pow | bitXor | otherB
  deriving DecidableEq, Repr

/-- Operator classes on `ast.UnaryOp` nodes: `USub` is in the dict;
`otherU` (`UAdd`, `Not`, `Invert`) raises `KeyError`. -/
inductive PyUnaryOp
  | usub | otherU
  deriving DecidableEq, Repr

/-- The expression AST produced by `ast.parse(mode='eval').body`:
`otherNode` stands for any node `eval_` does not handle (`Name`, `Call`,
`Compare`, ...), for which it raises `TypeError(node)`. -/
inductive PyAst
  | const (c : PyConst)
  | binOp (op : PyBinOp) (l r : PyAst)
  | unaryOp (op : PyUnaryOp) (e : PyAst)
  | otherNode
  deriving DecidableEq, Repr

/-- The value of a `Constant` node (`eval_` returns `node.value`). -/
def constVal : PyConst → PyVal
  | PyConst.intc n => PyVal.vint n
  | PyConst.strc s => PyVal.vstr s
  | PyConst.boolc b => PyVal.vbool b
  | PyConst.nonec => PyVal.vnone

/-- View a value through Python's numeric tower (`bool` is an `int`
subclass): the rational value plus whether it is an int. -/
def toNum : PyVal → Option (ℚ × Bool)
  | PyVal.vint n => some ((n : ℚ), true)
  | PyVal.vbool b => some (if b then 1 else 0, true)
  | PyVal.vrat q => some (q, false)
  | _ => none

/-- View a value as a Python int (for bitwise xor). -/
def toInt : PyVal → Option Int
  | PyVal.vint n => some n
  | PyVal.vbool b => some (if b then 1 else 0)
  | _ => none

/-- Package a numeric result: an int when both operands were ints. -/
def mkNum (q : ℚ) (isInt : Bool) : PyVal :=
  if isInt then PyVal.vint q.num else PyVal.vrat q

/-- Python `s * n` string repetition (negative counts give `""`). -/
def strRepeat (s : String) (n : Int) : String :=
  String.join (List.replicate n.toNat s)

/-- `operator.add`: number addition or string concatenation. -/
def pyAdd : PyVal → PyVal → Except PyErr PyVal
  | PyVal.vstr a, PyVal.vstr b => Except.ok (PyVal.vstr (a ++ b))
  | v1, v2 =>
    match toNum v1, toNum v2 with
    | some (q1, i1), some (q2, i2) => Except.ok (mkNum (q1 + q2) (i1 && i2))
    | _, _ => Except.error PyErr.typeError

/-- `operator.sub`: numbers only. -/
def pySub (v1 v2 : PyVal) : Except PyErr PyVal :=
  match toNum v1, toNum v2 with
  | some (q1, i1), some (q2, i2) => Except.ok (mkNum (q1 - q2) (i1 && i2))
  | _, _ => Except.error PyErr.typeError

/-- `operator.mul`: number multiplication or string repetition by an
int. -/
def pyMul : PyVal → PyVal → Except PyErr PyVal
  | PyVal.vstr s, v2 =>
    match toNum v2 with
    | some (q, true) => Except.ok (PyVal.vstr (strRepeat s q.num))
    | _ => Except.error PyErr.typeError
  | v1, PyVal.vstr s =>
    match toNum v1 with
    | some (q, true) => Except.ok (PyVal.vstr (strRepeat s q.num))
    | _ => Except.error PyErr.typeError
  | v1, v2 =>
    match toNum v1, toNum v2 with
    | some (q1, i1), some (q2, i2) => Except.ok (mkNum (q1 * q2) (i1 && i2))
    | _, _ => Except.error PyErr.typeError

/-- `operator.truediv`: numbers only; Python always returns a float, and
raises `ZeroDivisionError` on a zero divisor. -/
def pyDiv (v1 v2 : PyVal) : Except PyErr PyVal :=
  match toNum v1, toNum v2 with
  | some (q1, _), some (q2, _) =>
    if q2 = 0 then Except.error PyErr.zeroDivisionError
    else Except.ok (PyVal.vrat (q1 / q2))
  | _, _ => Except.error PyErr.typeError

/-- `operator.pow`: numbers only.  Integer exponents are exact; a zero
base with a negative exponent raises `ZeroDivisionError`; a fractional
exponent is a Python float (or complex) power, kept as success with a
placeholder value (see the section comment). -/
def pyPow (v1 v2 : PyVal) : Except PyErr PyVal :=
  match toNum v1, toNum v2 with
  | some (q1, i1), some (q2, i2) =>
    if q2.den = 1 then
      if 0 ≤ q2.num then Except.ok (mkNum (q1 ^ q2.num.toNat) (i1 && i2))
      else if q1 = 0 then Except.error PyErr.zeroDivisionError
      else Except.ok (PyVal.vrat (q1 ^ q2.num))
    else
      if q1 = 0 ∧ q2 < 0 then Except.error PyErr.zeroDivisionError
      else Except.ok (PyVal.vrat 0)
  | _, _ => Except.error PyErr.typeError

/-- `operator.xor`: Python ints (and bools) only; floats and strings raise
`TypeError`. -/
def pyXor (v1 v2 : PyVal) : Except PyErr PyVal :=
  match toInt v1, toInt v2 with
  | some n1, some n2 => Except.ok (PyVal.vint (Int.xor n1 n2))
  | _, _ => Except.error PyErr.typeError

/-- `operator.neg` (for `USub`): numbers only. -/
def pyNeg (v : PyVal) : Except PyErr PyVal :=
  match toNum v with
  | some (q, i) => Except.ok (mkNum (-q) i)
  | none => Except.error PyErr.typeError

/-- The `operators` dict lookup for `BinOp` nodes. -/
def binOpFun : PyBinOp → Option (PyVal → PyVal → Except PyErr PyVal)
  | PyBinOp.add => some pyAdd
  | PyBinOp.sub => some pySub
  | PyBinOp.mult => some pyMul
  | PyBinOp.div => some pyDiv
  | PyBinOp.pow => some pyPow
  | PyBinOp.bitXor => some pyXor
  | PyBinOp.otherB => none

/-- `eval_` from `CalculatorTool.execute`: `Constant` returns its value;
`BinOp`/`UnaryOp` look up the operator class (a missing class raises
`KeyError` before the operands are evaluated, as in
`operators[type(node.op)](eval_(...), eval_(...))`); any other node raises
`TypeError`. -/
def evalAst : PyAst → Except PyErr PyVal
  | PyAst.const c => Except.ok (constVal c)
  | PyAst.binOp op l r =>
    match binOpFun op with
    | none => Except.error PyErr.keyError
    | some f => do f (← evalAst l) (← evalAst r)
  | PyAst.unaryOp op e =>
    match op with
    | PyUnaryOp.usub => do pyNeg (← evalAst e)
    | PyUnaryOp.otherU => Except.error PyErr.keyError
  | PyAst.otherNode => Except.error PyErr.typeError

/-- The outcome of `ast.parse(expression, mode='eval')`: a `SyntaxError`
or the parsed `body`. -/
inductive PyParse
  | failure
  | parsed (e : PyAst)
  deriving DecidableEq, Repr

/-- A value in the returned dict. -/
inductive DictVal
  | vs (s : String)
  | vv (v : PyVal)
  | verr (e : PyErr)
  deriving DecidableEq, Repr

/-- `CalculatorTool.execute` (calculator.py lines 25-66): the whole body
runs under `try/except Exception`; a successful evaluation returns
`{"expression", "result", ...}`, any exception (syntax error, `KeyError`,
`TypeError`, `ZeroDivisionError`) returns `{"expression", "error", ...}`.
(The human-readable `"message"` key is omitted: no claim mentions it.) -/
def calculatorExecute (expression : String) (p : PyParse) :
    List (String × DictVal) :=
  match p with
  | PyParse.failure =>
    [("expression", DictVal.vs expression), ("error", DictVal.verr PyErr.syntaxError)]
  | PyParse.parsed e =>
    match evalAst e with
    | Except.ok v =>
      [("expression", DictVal.vs expression), ("result", DictVal.vv v)]
    | Except.error err =>
      [("expression", DictVal.vs expression), ("error", DictVal.verr err)]

/-- Does the dict contain the key? -/
def hasKey (k : String) (d : List (String × DictVal)) : Bool :=
  d.any (fun kv => kv.1 == k)

/-- The claim's success condition, transcribed from its words: an
arithmetic expression over numeric literals using `+`, `-`, `*`, `/`,
`**`, `^` and unary minus. -/
def isNumericArithExpr : PyAst → Bool
  | PyAst.const (PyConst.intc _) => true
  | PyAst.const _ => false
  | PyAst.binOp op l r =>
    !(op == PyBinOp.otherB) && isNumericArithExpr l && isNumericArithExpr r
  | PyAst.unaryOp op e => (op == PyUnaryOp.usub) && isNumericArithExpr e
  | PyAst.otherNode => false

/-- **C10 counterexample.** The input string `"'a'"` parses to
`Constant('a')`; `eval_` returns the string `'a'` and `execute` returns a
dict with the `result` key — although `"'a'"` is not an arithmetic
expression over numeric literals, for which the claim demands the `error`
key. -/
theorem calculator_result_counterexample :
    hasKey "result"
      (calculatorExecute "'a'" (PyParse.parsed (PyAst.const (PyConst.strc "a"))))
      = true ∧
    isNumericArithExpr (PyAst.const (PyConst.strc "a")) = false := by
  decide

/-- **C10 (amended).** For every input, `CalculatorTool.execute` returns
normally (the `try/except Exception` catches everything) with a dict that
contains the key `expression` and exactly one of `result` / `error`:
`result` — holding the evaluated value — exactly when the input parses and
`eval_` succeeds on the `Constant`/`BinOp`/`UnaryOp` AST with the
supported operators, where constants may be any literal (numbers, but also
strings and booleans); `error` in all other cases, including malformed
syntax, unsupported node kinds (names, calls, comparisons), unsupported
operator classes, operand type errors, and division by zero. -/
theorem hasKey_pair (k k1 k2 : String) (v1 v2 : DictVal) :
    hasKey k [(k1, v1), (k2, v2)] = (k1 == k || k2 == k) := by
  simp [hasKey]

theorem calculator_execute_spec (expression : String) (p : PyParse) :
    hasKey "expression" (calculatorExecute expression p) = true ∧
    (hasKey "result" (calculatorExecute expression p) = true ↔
      ∃ e v, p = PyParse.parsed e ∧ evalAst e = Except.ok v) ∧
    (hasKey "error" (calculatorExecute expression p) = true ↔
      ¬ ∃ e v, p = PyParse.parsed e ∧ evalAst e = Except.ok v) ∧
    (∀ e v, p = PyParse.parsed e → evalAst e = Except.ok v →
      ("result", DictVal.vv v) ∈ calculatorExecute expression p) := by
  rcases p with _ | e
  · simp only [calculatorExecute]
    refine ⟨by rw [hasKey_pair]; decide, ?_, ?_, ?_⟩
    · constructor
      · intro h; rw [hasKey_pair] at h; exact absurd h (by decide)
      · rintro ⟨e, v, he, _⟩; exact absurd he (by simp)
    · constructor
      · rintro _ ⟨e, v, he, _⟩; exact absurd he (by simp)
      · intro _; rw [hasKey_pair]; decide
    · intro e v he; exact absurd he (by simp)
  · rcases hv : evalAst e with err | v
    · simp only [calculatorExecute, hv]
      refine ⟨by rw [hasKey_pair]; decide, ?_, ?_, ?_⟩
      · constructor
        · intro h; rw [hasKey_pair] at h; exact absurd h (by decide)
        · rintro ⟨e', v', he', hv'⟩
          rw [PyParse.parsed.injEq] at he'
          subst he'
          rw [hv] at hv'
          exact absurd hv' (by simp)
      · constructor
        · rintro _ ⟨e', v', he', hv'⟩
          rw [PyParse.parsed.injEq] at he'
          subst he'
          rw [hv] at hv'
          exact absurd hv' (by simp)
        · intro _; rw [hasKey_pair]; decide
      · intro e' v' he' hv'
        rw [PyParse.parsed.injEq] at he'
        subst he'
        rw [hv] at hv'
        exact absurd hv' (by simp)
    · simp only [calculatorExecute, hv]
      refine ⟨by rw [hasKey_pair]; decide, ?_, ?_, ?_⟩
      · exact ⟨fun _ => ⟨e, v, rfl, hv⟩, fun _ => by rw [hasKey_pair]; decide⟩
      · constructor
        · intro h; rw [hasKey_pair] at h; exact absurd h (by decide)
        · intro h; exact absurd ⟨e, v, rfl, hv⟩ h
      · intro e' v' he' hv'
        rw [PyParse.parsed.injEq] at he'
        subst he'
        rw [hv] at hv'
        rw [Except.ok.injEq] at hv'
        subst hv'
        simp

/-- Concrete instantiation of `calculator_execute_spec`: `"2+3"` parses to
`BinOp(Add, 2, 3)` and the returned dict carries `result = 5`. -/
theorem calculator_execute_spec_witness :
    ("result", DictVal.vv (PyVal.vint 5)) ∈
      calculatorExecute "2+3"
        (PyParse.parsed (PyAst.binOp PyBinOp.add
          (PyAst.const (PyConst.intc 2)) (PyAst.const (PyConst.intc 3)))) :=
  (calculator_execute_spec "2+3"
    (PyParse.parsed (PyAst.binOp PyBinOp.add
      (PyAst.const (PyConst.intc 2)) (PyAst.const (PyConst.intc 3))))).2.2.2
    _ (PyVal.vint 5) rfl
    (by show pyAdd (PyVal.vint 2) (PyVal.vint 3) = Except.ok (PyVal.vint 5)
        simp [pyAdd, toNum, mkNum]
        norm_num)

end Tank
